import Mathlib

/-!
Verification of the express-ts-template backend specification against its
source code.  The data model and operations of the repository are embedded
shallowly: Mongoose documents become Lean structures, handlers become pure
functions over an explicit store (a list of records), dates become
milliseconds since the epoch (`Nat`), and fallible flows return explicit
outcome types.  External collaborators (bcrypt, sha256, JSON, the JWT codec)
are modelled at the boundary the spec describes for them; each such model is
marked in its doc comment.
-/

/-- User record as stored in the users collection
(src/src/models/user.model.ts schema).  Dates are milliseconds since epoch.
Optional schema fields are `Option`s; `active` defaults to true. -/
structure UserRec where
  id : String
  fullname : String
  email : String
  password : String
  passwordConfirm : Option String := none
  role : String := "user"
  active : Bool := true
  passwordChangedAt : Option Nat := none
  resetPasswordToken : Option String := none
  resetPasswordTokenExpiresAt : Option Nat := none
deriving DecidableEq

/-- The pre-find query hook `userSchema.pre(/^find/)` adds the condition
`active: \x7b $ne: false \x7d` to every find-family query. -/
def activeNeFalse (u : UserRec) : Bool := u.active != false

/-- `findOne` with the pre-find hook applied: the first stored user
satisfying both the caller's filter and the hook's active condition. -/
def findOneHook (p : UserRec → Bool) (users : List UserRec) : Option UserRec :=
  users.find? (fun u => activeNeFalse u && p u)

/-- `findById` (protect's and getOne's lookup); `findById` delegates to
`findOne`, which the `/^find/` hook intercepts. -/
def findByIdHook (i : String) (users : List UserRec) : Option UserRec :=
  findOneHook (fun u => u.id == i) users

/-- signin's user lookup `User.findOne(\x7b email \x7d)` (the `+password`
projection does not change which document matches). -/
def signinLookup (email : String) (users : List UserRec) : Option UserRec :=
  findOneHook (fun u => u.email == email) users

/-- getAll's base collection read `Model.find()` after the pre-find hook
(before any query-string driven narrowing, which can only drop documents). -/
def getAllDocs (users : List UserRec) : List UserRec :=
  users.filter activeNeFalse

/-- C5: a user record with `active = false` is excluded from every default
read: getAll's collection query, getOne/protect's lookup by id, and signin's
lookup by email never return it. -/
theorem c5_inactive_excluded (u : UserRec) (users : List UserRec) (email i : String)
    (h : u.active = false) :
    u ∉ getAllDocs users ∧ signinLookup email users ≠ some u ∧
      findByIdHook i users ≠ some u := by
  have hpred : activeNeFalse u = false := by
    simp [activeNeFalse, h]
  refine ⟨?_, ?_, ?_⟩
  · intro hm
    have := (List.mem_filter.mp hm).2
    rw [hpred] at this
    exact Bool.noConfusion this
  · intro hfind
    have := List.find?_some hfind
    rw [hpred] at this
    simp at this
  · intro hfind
    have := List.find?_some hfind
    rw [hpred] at this
    simp at this

def inactiveUserW : UserRec :=
  { id := "u9", fullname := "In Active", email := "inactive@example.com",
    password := "hash", active := false }

theorem c5_witness :
    inactiveUserW.active = false ∧
      (inactiveUserW ∉ getAllDocs [inactiveUserW] ∧
        signinLookup "inactive@example.com" [inactiveUserW] ≠ some inactiveUserW ∧
        findByIdHook "u9" [inactiveUserW] ≠ some inactiveUserW) :=
  ⟨by decide,
    c5_inactive_excluded inactiveUserW [inactiveUserW] "inactive@example.com" "u9" (by decide)⟩

/-- Outcome of a middleware: pass control on, or raise Forbidden. -/
inductive MwResult where
  | next : MwResult
  | forbidden : MwResult
deriving DecidableEq

/-- The `restrictTo(...roles)` middleware (auth controller): it raises
Forbidden only when a user is attached to the request AND its role is not in
the allowed list; with no attached user it calls `next()`. -/
def restrictTo (roles : List String) (reqUser : Option UserRec) : MwResult :=
  match reqUser with
  | some u => if !(roles.contains u.role) then .forbidden else .next
  | none => .next

/-- C6: for every role list, when no user is attached to the request the
middleware produced by restrictTo passes control downstream without raising
any error, so restrictTo alone denies no request. -/
theorem c6_restrictTo_skips_when_no_user (roles : List String) :
    restrictTo roles none = .next := rfl

/-- A generic stored document, as handled by the resource handler factory
(src/src/controllers/handlerFactory.ts is generic over the collection). -/
structure Doc where
  id : String
  body : String
deriving DecidableEq

/-- Response of the deleteOne handler. -/
inductive DeleteOutcome where
  | badRequest : DeleteOutcome
  | notFound : DeleteOutcome
  | noContent : DeleteOutcome
deriving DecidableEq

/-- The deleteOne factory handler: an absent or empty (JS-falsy) id param
fails BadRequest before the store is consulted; otherwise
`findByIdAndDelete` removes the matching document, or NotFound results.
The pair returned is (response, store after the call). -/
def deleteOne (paramId : Option String) (store : List Doc) : DeleteOutcome × List Doc :=
  match paramId with
  | none => (.badRequest, store)
  | some s =>
    if s = "" then (.badRequest, store)
    else
      match store.find? (fun d => d.id == s) with
      | none => (.notFound, store)
      | some _ => (.noContent, store.eraseP (fun d => d.id == s))

/-- C8: deleteOne fails BadRequest on an absent or empty identifier leaving
every store untouched (no store access), fails NotFound when the identifier
matches no document, and on success removes the matched document and
responds with no content. -/
theorem c8_deleteOne_spec (store : List Doc) (s : String) :
    deleteOne none store = (.badRequest, store) ∧
    deleteOne (some "") store = (.badRequest, store) ∧
    (s ≠ "" → store.find? (fun d => d.id == s) = none →
      deleteOne (some s) store = (.notFound, store)) ∧
    (∀ d, s ≠ "" → store.find? (fun d2 => d2.id == s) = some d →
      deleteOne (some s) store = (.noContent, store.eraseP (fun d2 => d2.id == s))) := by
  refine ⟨rfl, by simp [deleteOne], ?_, ?_⟩
  · intro hs hfind
    simp [deleteOne, hs, hfind]
  · intro d hs hfind
    simp [deleteOne, hs, hfind]

def docW : Doc := { id := "abc", body := "payload" }

theorem c8_witness :
    deleteOne (some "abc") [docW] =
      (.noContent, ([docW] : List Doc).eraseP (fun d2 => d2.id == "abc")) ∧
    deleteOne (some "zzz") [docW] = (.notFound, [docW]) :=
  ⟨(c8_deleteOne_spec [docW] "abc").2.2.2 docW (by decide) (by decide),
    (c8_deleteOne_spec [docW] "zzz").2.2.1 (by decide) (by decide)⟩

/-- Shape of a Mongo duplicate-key (code 11000) error as used by the error
translator: `keyValue` maps the conflicting field to its duplicated value. -/
structure MongoDupErr where
  keyValue : Option (List (String × String))

/-- JS property read `o.k` on an object modelled as an association list. -/
def jsPropLookup (o : List (String × String)) (k : String) : Option String :=
  (o.find? (fun kv => kv.1 == k)).map (fun kv => kv.2)

/-- JS template-literal interpolation: `undefined` prints as "undefined". -/
def jsTemplateOpt (o : Option String) : String :=
  match o with
  | some s => s
  | none => "undefined"

/-- handleDuplicateFieldsDB (error controller): builds the BadRequest
message from `err.keyValue?.name` — the literal property `name`, not the
conflicting field.  Returns (message, status code). -/
def handleDuplicateFieldsDB (err : MongoDupErr) : String × Nat :=
  ("Duplicate field value: \"" ++
      jsTemplateOpt ((err.keyValue.map (fun kv => jsPropLookup kv "name")).join) ++
      "\". Please use another value!", 400)

/-- Substring test: does `s` start with `p`? -/
def startsWithL : List Char → List Char → Bool
  | [], _ => true
  | _ :: _, [] => false
  | p :: ps, c :: cs => p == c && startsWithL ps cs

/-- Substring test: does `p` occur anywhere in `s`? -/
def hasSubL (p : List Char) : List Char → Bool
  | [] => startsWithL p []
  | s@(_ :: rest) => startsWithL p s || hasSubL p rest

/-- C9: on a duplicate-key error for the User email unique constraint
(keyValue = email ↦ duplicated value), the translated message interpolates
the nonexistent `name` property — the JS value undefined — so the message
names neither the conflicting field nor its value. -/
theorem c9_duplicate_message_is_undefined :
    handleDuplicateFieldsDB ⟨some [("email", "user@example.com")]⟩ =
      ("Duplicate field value: \"undefined\". Please use another value!", 400) ∧
    hasSubL "email".toList
      (handleDuplicateFieldsDB ⟨some [("email", "user@example.com")]⟩).1.toList = false ∧
    hasSubL "user@example.com".toList
      (handleDuplicateFieldsDB ⟨some [("email", "user@example.com")]⟩).1.toList = false := by
  decide

/-- The `userSchema.pre("save")` hook: when the password path is modified it
replaces the password by its hash and clears passwordConfirm, and does
nothing else.  `hashFn` stands for the external bcrypt.hash with its random
salt fixed; `passwordModified` is Mongoose's isModified("password"). -/
def preSaveHook (hashFn : String → String) (passwordModified : Bool) (u : UserRec) : UserRec :=
  if passwordModified then
    { u with password := hashFn u.password, passwordConfirm := none }
  else u

/-- resetPassword's success-path document mutation before `save`: set the
new password hash and clear both reset-token fields (auth controller). -/
def resetPasswordMutate (newHashedPassword : String) (u : UserRec) : UserRec :=
  { u with password := newHashedPassword,
           resetPasswordToken := none,
           resetPasswordTokenExpiresAt := none }

/-- C3 (refuted; the code never touches passwordChangedAt): both the
pre-save hook (run by signup's create) and resetPassword's mutation + save
leave `passwordChangedAt` exactly as it was, for every user, hash function
and modification flag — so no password change updates it. -/
theorem c3_passwordChangedAt_never_updated (hashFn : String → String) (m : Bool)
    (u : UserRec) (p : String) :
    (preSaveHook hashFn m u).passwordChangedAt = u.passwordChangedAt ∧
    (preSaveHook hashFn true (resetPasswordMutate p u)).passwordChangedAt
      = u.passwordChangedAt := by
  constructor
  · unfold preSaveHook
    split <;> rfl
  · rfl

/-- changedPasswordAfter (auth controller): with a stored
passwordChangedAt of `ms` milliseconds, the token of issue time
`tokenIssuedAt` seconds is stale iff `tokenIssuedAt < ms / 1000`; the exact
rational comparison is `1000 * tokenIssuedAt < ms` (the JS double division
by 1000 cannot flip this comparison for epoch-scale values, since the
rounding error is far below the 1/1000 second granularity). -/
def changedPasswordAfter (u : UserRec) (tokenIssuedAt : Nat) : Bool :=
  match u.passwordChangedAt with
  | some ms => decide (1000 * tokenIssuedAt < ms)
  | none => false

/-- Outcome of the tail of the protect middleware, once the bearer token has
been verified and its payload decoded. -/
inductive ProtectResult where
  | errNoUser : ProtectResult
  | errPwChanged : ProtectResult
  | grant : UserRec → ProtectResult
deriving DecidableEq

/-- Steps 3 and 4 of protect: look the decoded subject id up (through the
pre-find hook), fail Unauthorized if the user is gone, fail Unauthorized if
the password changed after the token was issued, else attach the user. -/
def protectAfterDecode (users : List UserRec) (decodedId : String) (iat : Nat) :
    ProtectResult :=
  match findByIdHook decodedId users with
  | none => .errNoUser
  | some cu => if changedPasswordAfter cu iat then .errPwChanged else .grant cu

def userChangedAtTokenTime : UserRec :=
  { id := "u1", fullname := "Eq Case", email := "eq@example.com",
    password := "hash", passwordChangedAt := some 1000000 }

/-- C4 counterexample: passwordChangedAt equals the token's issued-at time
exactly (1000000 ms = 1000 s = iat), so the update time is ≥ T as the claim
requires, yet protect grants access instead of failing Unauthorized:
changedPasswordAfter uses a strict comparison. -/
theorem c4_counterexample :
    1000 * 1000 ≤ 1000000 ∧
      protectAfterDecode [userChangedAtTokenTime] "u1" 1000 =
        .grant userChangedAtTokenTime := by
  decide

/-- C4 amended: a request evaluated after U's passwordChangedAt has been
updated to a time strictly greater than the token's issued-at time T
(milliseconds > 1000·T) fails with Unauthorized in protect. -/
theorem c4_amended_strictly_after_fails (users : List UserRec) (i : String)
    (iat ms : Nat) (u : UserRec)
    (hfind : findByIdHook i users = some u)
    (hms : u.passwordChangedAt = some ms)
    (hlt : 1000 * iat < ms) :
    protectAfterDecode users i iat = .errPwChanged := by
  simp [protectAfterDecode, hfind, changedPasswordAfter, hms, hlt]

def userChangedAfterTokenTime : UserRec :=
  { id := "u2", fullname := "Gt Case", email := "gt@example.com",
    password := "hash", passwordChangedAt := some 1000001 }

theorem c4_witness :
    protectAfterDecode [userChangedAfterTokenTime] "u2" 1000 = .errPwChanged :=
  c4_amended_strictly_after_fails [userChangedAfterTokenTime] "u2" 1000 1000001
    userChangedAfterTokenTime (by decide) (by decide) (by decide)

/-- forgotPassword stores the freshly generated token RAW, with a 1-hour
expiry, on the user record and saves (auth controller).  The token comes
from crypto.randomBytes(40).toString("hex"), an external random source, so
it is a parameter here; it always has 80 hex characters. -/
def forgotPasswordApply (resetToken : String) (now : Nat) (u : UserRec) : UserRec :=
  { u with resetPasswordToken := some resetToken,
           resetPasswordTokenExpiresAt := some (now + 1 * 60 * 60 * 1000) }

/-- resetPassword's user lookup: findOne by resetPasswordToken equal to the
sha256 hex digest of the supplied raw token, with an unexpired expiry
(plus the pre-find active filter).  sha256Hex models the external
crypto.createHash("sha256")...digest("hex") at its boundary. -/
def resetPasswordLookup (sha256Hex : String → String) (rawToken : String) (now : Nat)
    (users : List UserRec) : Option UserRec :=
  findOneHook (fun u =>
    u.resetPasswordToken == some (sha256Hex rawToken) &&
      (match u.resetPasswordTokenExpiresAt with
       | some e => decide (now < e)
       | none => false)) users

/-- Outcome of the resetPassword handler. -/
inductive ResetOutcome where
  | badRequestMismatch : ResetOutcome
  | badRequestToken : ResetOutcome
  | success : UserRec → ResetOutcome
deriving DecidableEq

/-- The resetPassword handler: password/confirm mismatch fails BadRequest;
a failed token lookup fails BadRequest ("Token is invalid or has expired");
otherwise the found user is updated and saved.  `newHash` stands for the
external bcrypt.hash of the new password with its random salt fixed. -/
def resetPasswordStep (sha256Hex : String → String) (newHash : String → String)
    (rawToken pw pwConfirm : String) (now : Nat) (users : List UserRec) : ResetOutcome :=
  if pw ≠ pwConfirm then .badRequestMismatch
  else
    match resetPasswordLookup sha256Hex rawToken now users with
    | none => .badRequestToken
    | some u => .success (resetPasswordMutate (newHash pw) u)

/-- C1 (refuted; the generation side never hashes): for any sha256 model
whose hex digests have 64 characters and any raw token of 80 characters (as
randomBytes(40).toString("hex") always produces), resetPassword with the
raw token against the store holding exactly the user forgotPassword just
updated fails with BadRequest — the lookup compares the sha256 digest to
the stored RAW token, which can never match. -/
theorem c1_reset_never_finds_user (sha256Hex : String → String)
    (hsha : ∀ s, (sha256Hex s).length = 64)
    (newHash : String → String) (u : UserRec) (tok : String)
    (htok : tok.length = 80) (now now2 : Nat) (pw : String) :
    resetPasswordStep sha256Hex newHash tok pw pw now2
      [forgotPasswordApply tok now u] = .badRequestToken := by
  have hne : tok ≠ sha256Hex tok := by
    intro he
    have := congrArg String.length he
    rw [htok, hsha tok] at this
    omega
  have hbeq : ((some tok : Option String) == some (sha256Hex tok)) = false := by
    simp [hne]
  simp only [resetPasswordStep, resetPasswordLookup, findOneHook, forgotPasswordApply,
    List.find?]
  simp [hbeq]

def sha256Stub : String → String := fun _ => String.mk (List.replicate 64 'a')

def rawTokenW : String := String.mk (List.replicate 80 'b')

def forgotUserW : UserRec :=
  { id := "u5", fullname := "For Got", email := "forgot@example.com", password := "hash" }

theorem c1_witness :
    rawTokenW.length = 80 ∧
      resetPasswordStep sha256Stub (fun s => s) rawTokenW "newpass1" "newpass1" 0
        [forgotPasswordApply rawTokenW 0 forgotUserW] = .badRequestToken :=
  ⟨by decide,
    c1_reset_never_finds_user sha256Stub (fun _ => rfl) (fun s => s)
      forgotUserW rawTokenW (by decide) 0 0 "newpass1"⟩

/-- Format marker of a bcrypt cost-12 hash, "$2b$12$", as characters. -/
def bcPre : List Char := ['$', '2', 'b', '$', '1', '2', '$']

/-- Modelled from the spec: the external bcrypt hasher at its boundary
(§4.1 Credential Hasher) — a deterministic one-way transform given its
per-call random salt, with the salt embedded in the output after a format
marker.  The salt is an opaque dollar-free character string. -/
def bcryptHash (salt p : List Char) : List Char := bcPre ++ salt ++ '$' :: p

/-- Strip an expected literal from the front of a list. -/
def stripL : List Char → List Char → Option (List Char)
  | [], r => some r
  | _ :: _, [] => none
  | p :: ps, c :: cs => if c = p then stripL ps cs else none

/-- Skip the embedded salt: drop characters up to and including the next
dollar separator. -/
def afterSalt : List Char → Option (List Char)
  | [] => none
  | c :: r => if c = '$' then some r else afterSalt r

/-- The body a stored bcrypt hash committed to: what bcrypt.compare
recomputes the candidate against. -/
def bcryptBody (h : List Char) : Option (List Char) :=
  (stripL bcPre h).bind afterSalt

/-- Modelled from the spec: bcrypt.compare recomputes the hash of the
plaintext with the salt embedded in the stored hash and compares;
equivalently, the body embedded in the stored hash must equal the
plaintext. -/
def bcryptCompare (p h : List Char) : Bool := bcryptBody h == some p

theorem stripL_append (p r : List Char) : stripL p (p ++ r) = some r := by
  induction p with
  | nil => rfl
  | cons c ps ih => simp [stripL, ih]

theorem afterSalt_append (s r : List Char) (hs : '$' ∉ s) :
    afterSalt (s ++ '$' :: r) = some r := by
  induction s with
  | nil => simp [afterSalt]
  | cons c s' ih =>
    have hc : c ≠ '$' := by
      intro he
      exact hs (he ▸ List.mem_cons_self c s')
    have hs' : '$' ∉ s' := fun hm => hs (List.mem_cons_of_mem c hm)
    simp [afterSalt, hc, ih hs']

theorem bcryptBody_hash (salt p : List Char) (hs : '$' ∉ salt) :
    bcryptBody (bcryptHash salt p) = some p := by
  unfold bcryptBody bcryptHash
  rw [List.append_assoc] at *
  rw [stripL_append]
  simpa using afterSalt_append salt p hs

/-- Model sanity: the hasher does verify a correctly stored single hash, so
the refutation below is not an artifact of the bcrypt model. -/
theorem bcrypt_model_verifies (salt p : List Char) (hs : '$' ∉ salt) :
    bcryptCompare p (bcryptHash salt p) = true := by
  simp [bcryptCompare, bcryptBody_hash salt p hs]

/-- The password signup durably stores: the handler first computes
generateHashedPassword (bcrypt, salt s1), then `User.create` runs the
pre-save hook, which sees a modified password and hashes the already-hashed
string again (bcrypt, salt s2). -/
def signupStoredPassword (s1 s2 plain : List Char) : List Char :=
  bcryptHash s2 (bcryptHash s1 plain)

/-- C2 (partially refuted; the password is double-hashed): for every
plaintext and salts, the stored value never equals the plaintext (that part
of the claim holds), but verify(plaintext, stored) FAILS — the outer hash
commits to the inner hash string, not to the plaintext. -/
theorem c2_signup_verify_fails (plain s1 s2 : List Char) (hs2 : '$' ∉ s2) :
    signupStoredPassword s1 s2 plain ≠ plain ∧
      bcryptCompare plain (signupStoredPassword s1 s2 plain) = false := by
  have hlen : (bcryptHash s1 plain).length = plain.length + s1.length + 8 := by
    simp [bcryptHash, bcPre]
    omega
  have hinner : bcryptHash s1 plain ≠ plain := by
    intro he
    have := congrArg List.length he
    rw [hlen] at this
    omega
  constructor
  · intro he
    have := congrArg List.length he
    simp [signupStoredPassword, bcryptHash, bcPre] at this
    omega
  · have hbody : bcryptBody (signupStoredPassword s1 s2 plain)
        = some (bcryptHash s1 plain) :=
      bcryptBody_hash s2 (bcryptHash s1 plain) hs2
    simp [bcryptCompare, hbody, hinner]

theorem c2_witness :
    ('$' ∉ (['y'] : List Char)) ∧
      (signupStoredPassword ['x'] ['y'] ['p', 'w'] ≠ ['p', 'w'] ∧
        bcryptCompare ['p', 'w'] (signupStoredPassword ['x'] ['y'] ['p', 'w']) = false) :=
  ⟨by decide, c2_signup_verify_fails ['p', 'w'] ['x'] ['y'] (by decide)⟩

/-- filterObj (src helpers): keep only the entries of the body whose key is
in the allowed list, in body order. -/
def filterObj (obj : List (String × String)) (allowedFields : List String) :
    List (String × String) :=
  obj.filter (fun kv => allowedFields.contains kv.1)

/-- Application of one update-document entry to a stored user by
findByIdAndUpdate: known schema paths are set (with Mongoose's casts),
paths not in the schema — such as "name" — are dropped by strict mode. -/
def applyUpdateEntry (u : UserRec) (kv : String × String) : UserRec :=
  if kv.1 = "fullname" then { u with fullname := kv.2 }
  else if kv.1 = "email" then { u with email := kv.2 }
  else if kv.1 = "password" then { u with password := kv.2 }
  else if kv.1 = "passwordConfirm" then { u with passwordConfirm := some kv.2 }
  else if kv.1 = "role" then { u with role := kv.2 }
  else if kv.1 = "active" then { u with active := kv.2 == "true" }
  else if kv.1 = "passwordChangedAt" then
    { u with passwordChangedAt := kv.2.toNat? }
  else if kv.1 = "resetPasswordToken" then { u with resetPasswordToken := some kv.2 }
  else if kv.1 = "resetPasswordTokenExpiresAt" then
    { u with resetPasswordTokenExpiresAt := kv.2.toNat? }
  else u

/-- findByIdAndUpdate's effect on the matched document. -/
def applyUpdate (u : UserRec) (upd : List (String × String)) : UserRec :=
  upd.foldl applyUpdateEntry u

/-- Outcome of the updateMe handler. -/
inductive UpdateMeResult where
  | errPasswordRoute : UpdateMeResult
  | errNotSignedIn : UpdateMeResult
  | ok : UserRec → UpdateMeResult
deriving DecidableEq

/-- JS truthiness of `req.body.k` for a flat string body: present with a
non-empty value. -/
def jsTruthyLookup (body : List (String × String)) (k : String) : Bool :=
  match body.find? (fun kv => kv.1 == k) with
  | some kv => kv.2 != ""
  | none => false

/-- The updateMe handler (user controller): reject password updates, require
an attached user, then update the user with filterObj(body, "name",
"email"). -/
def updateMe (reqUser : Option UserRec) (body : List (String × String)) : UpdateMeResult :=
  if jsTruthyLookup body "password" || jsTruthyLookup body "passwordConfirm" then
    .errPasswordRoute
  else
    match reqUser with
    | none => .errNotSignedIn
    | some u => .ok (applyUpdate u (filterObj body ["name", "email"]))

theorem applyUpdate_name_email_frame (u : UserRec) (l : List (String × String))
    (hl : ∀ kv ∈ l, kv.1 = "name" ∨ kv.1 = "email") :
    (applyUpdate u l).role = u.role ∧ (applyUpdate u l).password = u.password ∧
    (applyUpdate u l).active = u.active ∧
    (applyUpdate u l).passwordChangedAt = u.passwordChangedAt ∧
    (applyUpdate u l).resetPasswordToken = u.resetPasswordToken ∧
    (applyUpdate u l).resetPasswordTokenExpiresAt = u.resetPasswordTokenExpiresAt ∧
    (applyUpdate u l).fullname = u.fullname ∧ (applyUpdate u l).id = u.id := by
  induction l generalizing u with
  | nil => simp [applyUpdate]
  | cons kv t ih =>
    have hkv := hl kv (List.mem_cons_self kv t)
    have ht : ∀ kv2 ∈ t, kv2.1 = "name" ∨ kv2.1 = "email" :=
      fun kv2 hm => hl kv2 (List.mem_cons_of_mem kv hm)
    have hstep : (applyUpdateEntry u kv).role = u.role ∧
        (applyUpdateEntry u kv).password = u.password ∧
        (applyUpdateEntry u kv).active = u.active ∧
        (applyUpdateEntry u kv).passwordChangedAt = u.passwordChangedAt ∧
        (applyUpdateEntry u kv).resetPasswordToken = u.resetPasswordToken ∧
        (applyUpdateEntry u kv).resetPasswordTokenExpiresAt
          = u.resetPasswordTokenExpiresAt ∧
        (applyUpdateEntry u kv).fullname = u.fullname ∧
        (applyUpdateEntry u kv).id = u.id := by
      rcases hkv with hk | hk <;> simp [applyUpdateEntry, hk]
    have := ih (applyUpdateEntry u kv) ht
    simp only [applyUpdate, List.foldl_cons] at *
    exact ⟨this.1.trans hstep.1, this.2.1.trans hstep.2.1,
      this.2.2.1.trans hstep.2.2.1, this.2.2.2.1.trans hstep.2.2.2.1,
      this.2.2.2.2.1.trans hstep.2.2.2.2.1,
      this.2.2.2.2.2.1.trans hstep.2.2.2.2.2.1,
      this.2.2.2.2.2.2.1.trans hstep.2.2.2.2.2.2.1,
      this.2.2.2.2.2.2.2.trans hstep.2.2.2.2.2.2.2⟩

/-- C10: for an authenticated request whose body has no password or
passwordConfirm entry, updateMe applies exactly the body entries keyed
"name" or "email" (all other entries are filtered out), and the user's
role, password, active flag, passwordChangedAt and both reset-token fields
are unchanged — as are fullname (the schema path is "fullname", so a
"name" entry is dropped by strict mode) and the id. -/
theorem c10_updateMe_frame (u : UserRec) (body : List (String × String))
    (hp : body.find? (fun kv => kv.1 == "password") = none)
    (hpc : body.find? (fun kv => kv.1 == "passwordConfirm") = none) :
    updateMe (some u) body =
      .ok (applyUpdate u (body.filter (fun kv => kv.1 == "name" || kv.1 == "email"))) ∧
    (applyUpdate u (filterObj body ["name", "email"])).role = u.role ∧
    (applyUpdate u (filterObj body ["name", "email"])).password = u.password ∧
    (applyUpdate u (filterObj body ["name", "email"])).active = u.active ∧
    (applyUpdate u (filterObj body ["name", "email"])).passwordChangedAt
      = u.passwordChangedAt ∧
    (applyUpdate u (filterObj body ["name", "email"])).resetPasswordToken
      = u.resetPasswordToken ∧
    (applyUpdate u (filterObj body ["name", "email"])).resetPasswordTokenExpiresAt
      = u.resetPasswordTokenExpiresAt ∧
    (applyUpdate u (filterObj body ["name", "email"])).fullname = u.fullname := by
  have hfilter : filterObj body ["name", "email"]
      = body.filter (fun kv => kv.1 == "name" || kv.1 == "email") := by
    unfold filterObj
    congr 1
    funext kv
    cases h1 : kv.1 == "name" <;> cases h2 : kv.1 == "email" <;>
      simp [List.contains, List.elem, h1, h2]
  have hframe := applyUpdate_name_email_frame u (filterObj body ["name", "email"])
    (by
      intro kv hm
      have := (List.mem_filter.mp hm).2
      simp [List.contains] at this
      tauto)
  refine ⟨?_, hframe.1, hframe.2.1, hframe.2.2.1, hframe.2.2.2.1,
    hframe.2.2.2.2.1, hframe.2.2.2.2.2.1, hframe.2.2.2.2.2.2.1⟩
  have htr1 : jsTruthyLookup body "password" = false := by
    simp [jsTruthyLookup, hp]
  have htr2 : jsTruthyLookup body "passwordConfirm" = false := by
    simp [jsTruthyLookup, hpc]
  rw [updateMe]
  rw [htr1, htr2]
  simp [hfilter]

def updateUserW : UserRec :=
  { id := "u7", fullname := "Old Name", email := "old@example.com",
    password := "hash", role := "user", passwordChangedAt := some 7 }

theorem c10_witness :
    updateMe (some updateUserW)
        [("email", "new@example.com"), ("role", "admin"), ("note", "hi")] =
      .ok (applyUpdate updateUserW
        ([("email", "new@example.com"), ("role", "admin"), ("note", "hi")].filter
          (fun kv => kv.1 == "name" || kv.1 == "email"))) ∧
    (applyUpdate updateUserW
      (filterObj [("email", "new@example.com"), ("role", "admin"), ("note", "hi")]
        ["name", "email"])).role = updateUserW.role :=
  ⟨(c10_updateMe_frame updateUserW
      [("email", "new@example.com"), ("role", "admin"), ("note", "hi")]
      (by decide) (by decide)).1,
    (c10_updateMe_frame updateUserW
      [("email", "new@example.com"), ("role", "admin"), ("note", "hi")]
      (by decide) (by decide)).2.1⟩

/-- JS regex word character class: [A-Za-z0-9_]. -/
def isWordChar (c : Char) : Bool := c.isAlphanum || c == '_'

def gtL : List Char := ['g', 't']

def gteL : List Char := ['g', 't', 'e']

def ltL : List Char := ['l', 't']

def lteL : List Char := ['l', 't', 'e']

def eqL : List Char := ['e', 'q']

def neL : List Char := ['n', 'e']

/-- A word boundary sits here looking right: end of input or a non-word
character next (all the operator words consist of word characters). -/
def boundaryAfter : List Char → Bool
  | [] => true
  | c :: _ => !(isWordChar c)

/-- One attempt of the regex alternation (gt|gte|lt|lte|eq|ne) at the
current position, in JS leftmost-alternative order, each alternative
requiring the trailing word boundary. -/
def matchOp (s : List Char) : Option (List Char) :=
  if s.take 2 = gtL ∧ boundaryAfter (s.drop 2) = true then some gtL
  else if s.take 3 = gteL ∧ boundaryAfter (s.drop 3) = true then some gteL
  else if s.take 2 = ltL ∧ boundaryAfter (s.drop 2) = true then some ltL
  else if s.take 3 = lteL ∧ boundaryAfter (s.drop 3) = true then some lteL
  else if s.take 2 = eqL ∧ boundaryAfter (s.drop 2) = true then some eqL
  else if s.take 2 = neL ∧ boundaryAfter (s.drop 2) = true then some neL
  else none

theorem take_two_head (c : Char) (r : List Char) (d e : Char)
    (h : (c :: r).take 2 = [d, e]) : c = d := by
  have h' : c :: r.take 1 = [d, e] := h
  injection h'

theorem take_three_head (c : Char) (r : List Char) (d e f : Char)
    (h : (c :: r).take 3 = [d, e, f]) : c = d := by
  have h' : c :: r.take 2 = [d, e, f] := h
  injection h'

theorem matchOp_none_of_nonword (c : Char) (r : List Char) (hw : isWordChar c = false) :
    matchOp (c :: r) = none := by
  unfold matchOp
  split_ifs with h1 h2 h3 h4 h5 h6
  · rw [take_two_head c r 'g' 't' h1.1] at hw
    exact absurd hw (by decide)
  · rw [take_three_head c r 'g' 't' 'e' h2.1] at hw
    exact absurd hw (by decide)
  · rw [take_two_head c r 'l' 't' h3.1] at hw
    exact absurd hw (by decide)
  · rw [take_three_head c r 'l' 't' 'e' h4.1] at hw
    exact absurd hw (by decide)
  · rw [take_two_head c r 'e' 'q' h5.1] at hw
    exact absurd hw (by decide)
  · rw [take_two_head c r 'n' 'e' h6.1] at hw
    exact absurd hw (by decide)
  · rfl

theorem matchOp_cases (s a : List Char) (h : matchOp s = some a) :
    (a = gtL ∨ a = gteL ∨ a = ltL ∨ a = lteL ∨ a = eqL ∨ a = neL) ∧
      s.take a.length = a := by
  unfold matchOp at h
  split_ifs at h with h1 h2 h3 h4 h5 h6 <;>
    (rw [Option.some.injEq] at h
     subst h
     refine ⟨by tauto, ?_⟩
     first
       | exact h1.1 | exact h2.1 | exact h3.1 | exact h4.1 | exact h5.1 | exact h6.1)

theorem matchOp_pos (s a : List Char) (h : matchOp s = some a) : 0 < a.length := by
  rcases (matchOp_cases s a h).1 with h' | h' | h' | h' | h' | h' <;> subst h' <;> decide

theorem length_le_of_take_eq (s a : List Char) (h : s.take a.length = a) :
    a.length ≤ s.length := by
  by_contra hlt
  push_neg at hlt
  rw [List.take_of_length_le (by omega)] at h
  subst h
  omega

theorem matchOp_le_length (s a : List Char) (h : matchOp s = some a) :
    a.length ≤ s.length :=
  length_le_of_take_eq s a (matchOp_cases s a h).2

theorem op_chars_word (a : List Char)
    (h : a = gtL ∨ a = gteL ∨ a = ltL ∨ a = lteL ∨ a = eqL ∨ a = neL) :
    ∀ c ∈ a, isWordChar c = true := by
  rcases h with h | h | h | h | h | h <;> subst h <;> decide

/-- The global regex replace
`queryStr.replace(/\b(gt|gte|lt|lte|eq|ne)\b/g, m => "$" + m)` as a
left-to-right scanner.  `prevW` records whether the previous character of
the original text is a word character (so whether a word boundary can sit
before the current position); after a replacement, scanning resumes past
the matched word, whose last character is a word character. -/
def rwAux (prevW : Bool) (s : List Char) : List Char :=
  match s with
  | [] => []
  | c :: rest =>
    if prevW then c :: rwAux (isWordChar c) rest
    else
      match h : matchOp (c :: rest) with
      | some a => '$' :: (a ++ rwAux true (List.drop a.length (c :: rest)))
      | none => c :: rwAux (isWordChar c) rest
termination_by s.length
decreasing_by
  · simp only [List.length_cons]
    omega
  · have hpos := matchOp_pos _ _ h
    simp only [List.length_drop, List.length_cons]
    omega
  · simp only [List.length_cons]
    omega

/-- The operator rewrite on one character string. -/
def rewriteOps (s : List Char) : List Char := rwAux false s

theorem rwAux_cons_nonword (p : Bool) (c : Char) (r : List Char)
    (hw : isWordChar c = false) : rwAux p (c :: r) = c :: rwAux false r := by
  cases p
  · rw [rwAux]
    simp only [Bool.false_eq_true, if_false]
    split
    · rename_i a heq
      rw [matchOp_none_of_nonword c r hw] at heq
      exact Option.noConfusion heq
    · rw [hw]
  · rw [rwAux]
    simp [hw]

theorem rwAux_cons_word_of_prev (c : Char) (r : List Char) :
    rwAux true (c :: r) = c :: rwAux (isWordChar c) r := by
  rw [rwAux]
  simp

/-- Word-character state of the scanner after processing `s`, starting from
state `p`: the state contributed by the last character of `s`, or `p` when
`s` is empty. -/
def endW (p : Bool) (s : List Char) : Bool :=
  match s.getLast? with
  | some c => isWordChar c
  | none => p

theorem endW_cons (p : Bool) (c : Char) (s : List Char) :
    endW p (c :: s) = endW (isWordChar c) s := by
  cases s with
  | nil => simp [endW]
  | cons d t =>
    unfold endW
    rw [List.getLast?_cons_cons]
    cases hg : (d :: t).getLast? with
    | none => exact absurd (List.getLast?_eq_none_iff.mp hg) (by simp)
    | some e => rfl

theorem boundaryAfter_append_right (l t : List Char) (ht : boundaryAfter t = true) :
    boundaryAfter (l ++ t) = boundaryAfter l := by
  cases l with
  | nil => simpa using ht
  | cons d ds => simp [boundaryAfter]

theorem cond_append (x t : List Char) (hx : x ≠ []) (ht : boundaryAfter t = true)
    (k : Nat) (opL : List Char) (hk : opL.length = k)
    (hop : ∀ c ∈ opL, isWordChar c = true) :
    ((x ++ t).take k = opL ∧ boundaryAfter ((x ++ t).drop k) = true) ↔
      (x.take k = opL ∧ boundaryAfter (x.drop k) = true) := by
  constructor
  · rintro ⟨h1, h2⟩
    by_cases hlen : k ≤ x.length
    · have htake : x.take k = opL := by
        rw [List.take_append_eq_append_take, Nat.sub_eq_zero_of_le hlen] at h1
        simpa using h1
      refine ⟨htake, ?_⟩
      rw [List.drop_append_eq_append_drop, Nat.sub_eq_zero_of_le hlen,
        List.drop_zero] at h2
      rwa [boundaryAfter_append_right (x.drop k) t ht] at h2
    · exfalso
      push_neg at hlen
      cases t with
      | nil =>
        rw [List.append_nil] at h1
        rw [List.take_of_length_le (by omega)] at h1
        have := congrArg List.length h1
        omega
      | cons t0 t1 =>
        have hw0 : isWordChar t0 = false := by
          simpa [boundaryAfter] using ht
        have hmem : t0 ∈ (x ++ t0 :: t1).take k := by
          rw [List.take_append_eq_append_take]
          refine List.mem_append_right _ ?_
          cases hkx : k - x.length with
          | zero => exact absurd hkx (by omega)
          | succ m => simp
        rw [h1] at hmem
        rw [hop t0 hmem] at hw0
        exact Bool.noConfusion hw0
  · rintro ⟨h1, h2⟩
    have hlen : k ≤ x.length := by
      by_contra hlt
      push_neg at hlt
      rw [List.take_of_length_le (by omega)] at h1
      have := congrArg List.length h1
      omega
    constructor
    · rw [List.take_append_eq_append_take, Nat.sub_eq_zero_of_le hlen]
      simp [h1]
    · rw [List.drop_append_eq_append_drop, Nat.sub_eq_zero_of_le hlen, List.drop_zero]
      rw [boundaryAfter_append_right (x.drop k) t ht]
      exact h2

theorem matchOp_append (x t : List Char) (hx : x ≠ []) (ht : boundaryAfter t = true) :
    matchOp (x ++ t) = matchOp x := by
  have e1 := cond_append x t hx ht 2 gtL (by decide) (by decide)
  have e2 := cond_append x t hx ht 3 gteL (by decide) (by decide)
  have e3 := cond_append x t hx ht 2 ltL (by decide) (by decide)
  have e4 := cond_append x t hx ht 3 lteL (by decide) (by decide)
  have e5 := cond_append x t hx ht 2 eqL (by decide) (by decide)
  have e6 := cond_append x t hx ht 2 neL (by decide) (by decide)
  unfold matchOp
  simp only [e1, e2, e3, e4, e5, e6]

theorem rwAux_false_cons_none (c : Char) (x : List Char)
    (hm : matchOp (c :: x) = none) :
    rwAux false (c :: x) = c :: rwAux (isWordChar c) x := by
  rw [rwAux]
  simp only [Bool.false_eq_true, if_false]
  split
  · rename_i a heq
    rw [hm] at heq
    exact Option.noConfusion heq
  · rfl

theorem rwAux_false_cons_some (c : Char) (x a : List Char)
    (hm : matchOp (c :: x) = some a) :
    rwAux false (c :: x) = '$' :: (a ++ rwAux true (List.drop a.length (c :: x))) := by
  rw [rwAux]
  simp only [Bool.false_eq_true, if_false]
  split
  · rename_i a2 heq
    rw [hm] at heq
    injection heq with h2
    subst h2
    rfl
  · rename_i heq
    rw [hm] at heq
    exact Option.noConfusion heq

theorem op_last_word (a : List Char)
    (h : a = gtL ∨ a = gteL ∨ a = ltL ∨ a = lteL ∨ a = eqL ∨ a = neL) :
    ∃ d, a.getLast? = some d ∧ isWordChar d = true := by
  rcases h with h | h | h | h | h | h <;> subst h <;> exact ⟨_, rfl, by decide⟩

theorem getLast?_drop_of_ne_nil (l : List Char) (k : Nat) (h : l.drop k ≠ []) :
    (l.drop k).getLast? = l.getLast? := by
  conv_rhs => rw [← List.take_append_drop k l]
  rw [List.getLast?_append]
  cases hg : (l.drop k).getLast? with
  | none => exact absurd (List.getLast?_eq_none_iff.mp hg) h
  | some d => simp [Option.or]

/-- The scanner distributes over an append whose right part begins at a
word boundary: no operator match can span the seam. -/
theorem rwAux_append (t : List Char) (ht : boundaryAfter t = true) :
    ∀ n (s : List Char), s.length ≤ n → ∀ p,
      rwAux p (s ++ t) = rwAux p s ++ rwAux (endW p s) t := by
  intro n
  induction n with
  | zero =>
    intro s hs p
    have hnil : s = [] := List.eq_nil_of_length_eq_zero (by omega)
    subst hnil
    simp [rwAux, endW]
  | succ n ih =>
    intro s hs p
    cases s with
    | nil => simp [rwAux, endW]
    | cons c s1 =>
      rw [endW_cons]
      have hs1 : s1.length ≤ n := by
        simp only [List.length_cons] at hs
        omega
      cases p with
      | true =>
        rw [show (c :: s1) ++ t = c :: (s1 ++ t) from rfl]
        rw [rwAux_cons_word_of_prev c (s1 ++ t), rwAux_cons_word_of_prev c s1]
        rw [ih s1 hs1 (isWordChar c)]
        simp [List.cons_append]
      | false =>
        have hmo : matchOp ((c :: s1) ++ t) = matchOp (c :: s1) :=
          matchOp_append (c :: s1) t (by simp) ht
        cases hm : matchOp (c :: s1) with
        | none =>
          have hL : rwAux false (c :: (s1 ++ t)) = c :: rwAux (isWordChar c) (s1 ++ t) :=
            rwAux_false_cons_none c (s1 ++ t) (by rw [← hmo] at hm; exact hm)
          rw [show (c :: s1) ++ t = c :: (s1 ++ t) from rfl, hL,
            rwAux_false_cons_none c s1 hm]
          rw [ih s1 hs1 (isWordChar c)]
          simp [List.cons_append]
        | some a =>
          have hle : a.length ≤ (c :: s1).length := matchOp_le_length _ _ hm
          have hL : rwAux false (c :: (s1 ++ t))
              = '$' :: (a ++ rwAux true (List.drop a.length (c :: (s1 ++ t)))) :=
            rwAux_false_cons_some c (s1 ++ t) a (by rw [← hmo] at hm; exact hm)
          rw [show (c :: s1) ++ t = c :: (s1 ++ t) from rfl, hL,
            rwAux_false_cons_some c s1 a hm]
          have hdrop : List.drop a.length (c :: (s1 ++ t))
              = (List.drop a.length (c :: s1)) ++ t := by
            rw [show c :: (s1 ++ t) = (c :: s1) ++ t from rfl]
            rw [List.drop_append_eq_append_drop, Nat.sub_eq_zero_of_le hle,
              List.drop_zero]
          rw [hdrop]
          by_cases hrem : List.drop a.length (c :: s1) = []
          · have hlen2 : (c :: s1).length ≤ a.length := by
              have := congrArg List.length hrem
              rw [List.length_drop] at this
              simp only [List.length_nil] at this
              omega
            have haeq : a = c :: s1 := by
              have htk := (matchOp_cases _ _ hm).2
              rw [List.take_of_length_le hlen2] at htk
              exact htk.symm
            obtain ⟨d, hd, hdw⟩ := op_last_word a (matchOp_cases _ _ hm).1
            have hendW : endW (isWordChar c) s1 = true := by
              rw [← endW_cons false c s1]
              unfold endW
              rw [← haeq, hd]
              exact hdw
            rw [hrem, hendW]
            simp [rwAux]
          · have hremlen : (List.drop a.length (c :: s1)).length ≤ n := by
              rw [List.length_drop]
              have := matchOp_pos _ _ hm
              simp only [List.length_cons] at hs ⊢
              omega
            rw [ih (List.drop a.length (c :: s1)) hremlen true]
            have hendW2 : endW true (List.drop a.length (c :: s1))
                = endW (isWordChar c) s1 := by
              rw [← endW_cons false c s1]
              unfold endW
              rw [getLast?_drop_of_ne_nil (c :: s1) a.length hrem]
              cases hg : (c :: s1).getLast? with
              | none => exact absurd (List.getLast?_eq_none_iff.mp hg) (by simp)
              | some e => rfl
            rw [hendW2]
            simp [List.cons_append, List.append_assoc]

/-- Hex digit used by the \u00XX escape. -/
def escHexDigit (n : Nat) : Char :=
  if n < 10 then Char.ofNat (48 + n) else Char.ofNat (87 + n)

/-- Modelled from the spec: JSON.stringify's escaping of one character of a
flat string map: quote and backslash get a backslash, the common control
characters get their two-character escapes, the remaining control
characters get \u00XX, everything else serializes as itself. -/
def escChar (c : Char) : List Char :=
  if c = '"' || c = '\\' then ['\\', c]
  else if c = '\n' then ['\\', 'n']
  else if c = '\r' then ['\\', 'r']
  else if c = '\t' then ['\\', 't']
  else if c.toNat = 8 then ['\\', 'b']
  else if c.toNat = 12 then ['\\', 'f']
  else if c.toNat < 32 then
    ['\\', 'u', '0', '0', escHexDigit (c.toNat / 16), escHexDigit (c.toNat % 16)]
  else [c]

def escStr : List Char → List Char
  | [] => []
  | c :: r => escChar c ++ escStr r

/-- Serialized form of one entry with raw (already escaped or escape-free)
key and value text. -/
def entryRaw (kv : List Char × List Char) : List Char :=
  '"' :: (kv.1 ++ ('"' :: ':' :: '"' :: (kv.2 ++ ['"'])))

/-- Serialized form of one entry of a flat string map. -/
def entrySer (kv : List Char × List Char) : List Char :=
  entryRaw (escStr kv.1, escStr kv.2)

def joinComma : List (List Char) → List Char
  | [] => []
  | [x] => x
  | x :: y :: t => x ++ ',' :: joinComma (y :: t)

/-- Modelled from the spec: JSON.stringify of a flat string-to-string
object, in key order. -/
def stringifyFlat (q : List (List Char × List Char)) : List Char :=
  '{' :: (joinComma (q.map entrySer) ++ ['}'])

/-- Characters that JSON.stringify serializes as themselves: no quote, no
backslash, not a control character. -/
def plainChar (c : Char) : Bool :=
  !(c == '"') && !(c == '\\') && decide (32 ≤ c.toNat)

def plainStr (s : List Char) : Bool := s.all plainChar

theorem escChar_plain (c : Char) (h : plainChar c = true) : escChar c = [c] := by
  simp only [plainChar, Bool.and_eq_true, Bool.not_eq_true', beq_eq_false_iff_ne,
    decide_eq_true_eq] at h
  obtain ⟨⟨hq, hb⟩, h32⟩ := h
  have h10 : c ≠ '\n' := fun he => by rw [he] at h32; exact absurd h32 (by decide)
  have h13 : c ≠ '\r' := fun he => by rw [he] at h32; exact absurd h32 (by decide)
  have h9 : c ≠ '\t' := fun he => by rw [he] at h32; exact absurd h32 (by decide)
  have h8 : ¬(c.toNat = 8) := by omega
  have h12 : ¬(c.toNat = 12) := by omega
  have hlt : ¬(c.toNat < 32) := by omega
  simp [escChar, hq, hb, h10, h13, h9, h8, h12, hlt]

theorem escStr_plain (s : List Char) (h : plainStr s = true) : escStr s = s := by
  induction s with
  | nil => rfl
  | cons c r ih =>
    simp only [plainStr, List.all_cons, Bool.and_eq_true] at h
    obtain ⟨hc, hr⟩ := h
    simp [escStr, escChar_plain c hc, ih hr]

theorem plainStr_drop (s : List Char) (k : Nat) (h : plainStr s = true) :
    plainStr (s.drop k) = true := by
  rw [plainStr, List.all_eq_true] at *
  intro c hc
  exact h c (List.drop_subset k s hc)

theorem op_plain (a : List Char)
    (h : a = gtL ∨ a = gteL ∨ a = ltL ∨ a = lteL ∨ a = eqL ∨ a = neL) :
    plainStr a = true := by
  rcases h with h | h | h | h | h | h <;> subst h <;> decide

/-- The rewrite only copies characters and inserts dollars, so it keeps a
plain string plain. -/
theorem rwAux_plain : ∀ n (s : List Char), s.length ≤ n → plainStr s = true →
    ∀ p, plainStr (rwAux p s) = true := by
  intro n
  induction n with
  | zero =>
    intro s hs _ p
    have hnil : s = [] := List.eq_nil_of_length_eq_zero (by omega)
    subst hnil
    simp [rwAux, plainStr]
  | succ n ih =>
    intro s hs hp p
    cases s with
    | nil => simp [rwAux, plainStr]
    | cons c s1 =>
      simp only [plainStr, List.all_cons, Bool.and_eq_true] at hp
      obtain ⟨hc, hs1p⟩ := hp
      have hs1 : s1.length ≤ n := by
        simp only [List.length_cons] at hs
        omega
      have hcons : plainStr (c :: rwAux (isWordChar c) s1) = true := by
        simp only [plainStr, List.all_cons, Bool.and_eq_true]
        exact ⟨hc, ih s1 hs1 hs1p (isWordChar c)⟩
      cases p with
      | true =>
        rw [rwAux_cons_word_of_prev]
        exact hcons
      | false =>
        cases hm : matchOp (c :: s1) with
        | none =>
          rw [rwAux_false_cons_none _ _ hm]
          exact hcons
        | some a =>
          rw [rwAux_false_cons_some _ _ _ hm]
          have hdplain : plainStr (List.drop a.length (c :: s1)) = true := by
            apply plainStr_drop
            simp only [plainStr, List.all_cons, Bool.and_eq_true]
            exact ⟨hc, hs1p⟩
          have hdlen : (List.drop a.length (c :: s1)).length ≤ n := by
            rw [List.length_drop]
            have := matchOp_pos _ _ hm
            simp only [List.length_cons] at hs ⊢
            omega
          have hrec := ih _ hdlen hdplain true
          have hap : plainStr a = true := op_plain a (matchOp_cases _ _ hm).1
          simp only [plainStr, List.all_cons, List.all_append, Bool.and_eq_true] at *
          exact ⟨by decide, hap, hrec⟩

theorem rwAux_nil : rwAux false ([] : List Char) = [] := by
  rw [rwAux]

/-- Rewriting distributes over one serialized entry: the quotes delimiting
key and value are non-word characters, so no operator match crosses them,
and the rewrite acts on the key text and the value text independently. -/
theorem rwAux_entryRaw (k v tail : List Char) :
    rwAux false (entryRaw (k, v) ++ tail)
      = entryRaw (rewriteOps k, rewriteOps v) ++ rwAux false tail := by
  have hq : isWordChar '"' = false := by decide
  have hcolon : isWordChar ':' = false := by decide
  have h1 : entryRaw (k, v) ++ tail
      = '"' :: (k ++ ('"' :: ':' :: '"' :: (v ++ ('"' :: tail)))) := by
    simp [entryRaw, List.append_assoc]
  rw [h1, rwAux_cons_nonword false '"' _ hq]
  have hb1 : boundaryAfter ('"' :: ':' :: '"' :: (v ++ ('"' :: tail))) = true := by
    simp only [boundaryAfter]
    decide
  rw [rwAux_append _ hb1 k.length k le_rfl false]
  rw [rwAux_cons_nonword (endW false k) '"' _ hq]
  rw [rwAux_cons_nonword false ':' _ hcolon]
  rw [rwAux_cons_nonword false '"' _ hq]
  have hb2 : boundaryAfter ('"' :: tail) = true := by
    simp only [boundaryAfter]
    decide
  rw [rwAux_append _ hb2 v.length v le_rfl false]
  rw [rwAux_cons_nonword (endW false v) '"' tail hq]
  simp [entryRaw, rewriteOps, List.append_assoc]

theorem rwAux_close_brace : rwAux false (['}'] : List Char) = ['}'] := by
  rw [rwAux_cons_nonword false '}' [] (by decide), rwAux_nil]

/-- Rewriting the whole serialized body (entries joined by commas, closed by
the brace) rewrites each entry's key and value text in place. -/
theorem rwAux_joinComma (entries : List (List Char × List Char)) :
    rwAux false (joinComma (entries.map entryRaw) ++ ['}'])
      = joinComma ((entries.map
          (fun kv => (rewriteOps kv.1, rewriteOps kv.2))).map entryRaw) ++ ['}'] := by
  induction entries with
  | nil => simpa [joinComma] using rwAux_close_brace
  | cons e rest ih =>
    obtain ⟨k, v⟩ := e
    cases rest with
    | nil =>
      simp only [List.map_cons, List.map_nil, joinComma]
      rw [rwAux_entryRaw k v ['}'], rwAux_close_brace]
    | cons e2 rest2 =>
      simp only [List.map_cons, joinComma]
      rw [show (entryRaw (k, v) ++ ',' :: joinComma (entryRaw e2 :: rest2.map entryRaw)) ++ ['}']
          = entryRaw (k, v) ++ (',' :: (joinComma (entryRaw e2 :: rest2.map entryRaw) ++ ['}']))
        from by simp [List.append_assoc]]
      rw [rwAux_entryRaw k v _]
      rw [rwAux_cons_nonword false ',' _ (by decide)]
      have ih2 := ih
      simp only [List.map_cons] at ih2
      rw [ih2]
      simp [List.append_assoc]

/-- The character a valid two-character JSON escape stands for; `none` for
an invalid escape such as \$, on which JSON.parse throws. -/
def unescapeChar (e : Char) : Option Char :=
  if e = '"' then some '"'
  else if e = '\\' then some '\\'
  else if e = '/' then some '/'
  else if e = 'b' then some (Char.ofNat 8)
  else if e = 'f' then some (Char.ofNat 12)
  else if e = 'n' then some '\n'
  else if e = 'r' then some '\r'
  else if e = 't' then some '\t'
  else none

/-- Value of a hex digit of a \uXXXX escape. -/
def hexVal (c : Char) : Option Nat :=
  if '0' ≤ c ∧ c ≤ '9' then some (c.toNat - 48)
  else if 'a' ≤ c ∧ c ≤ 'f' then some (c.toNat - 87)
  else if 'A' ≤ c ∧ c ≤ 'F' then some (c.toNat - 55)
  else none

/-- Modelled from the spec: JSON.parse of one string literal body (after
its opening quote): collects characters until the closing quote; a valid
escape (\" \\ \/ \b \f \n \r \t \uXXXX) maps to its character, an invalid
escape or a raw control character makes the parse throw (`none`).  Returns
the string and the remaining input. -/
def parseStr : List Char → Option (List Char × List Char)
  | [] => none
  | c :: rest =>
    if c = '"' then some ([], rest)
    else if c = '\\' then
      match rest with
      | [] => none
      | e :: rest2 =>
        if e = 'u' then
          match rest2 with
          | h1 :: h2 :: h3 :: h4 :: rest3 =>
            match hexVal h1, hexVal h2, hexVal h3, hexVal h4 with
            | some a, some b, some c2, some d =>
              match parseStr rest3 with
              | some (s, r) => some (Char.ofNat (((a * 16 + b) * 16 + c2) * 16 + d) :: s, r)
              | none => none
            | _, _, _, _ => none
          | _ => none
        else
          match unescapeChar e with
          | some u =>
            match parseStr rest2 with
            | some (s, r) => some (u :: s, r)
            | none => none
          | none => none
    else if c.toNat < 32 then none
    else
      match parseStr rest with
      | some (s, r) => some (c :: s, r)
      | none => none

/-- Modelled from the spec: JSON.parse of the entry list of a flat
string-to-string object, fuelled by an upper bound on the number of
entries. -/
def parseEntriesF : Nat → List Char → Option (List (List Char × List Char))
  | 0, _ => none
  | fuel + 1, s =>
    match s with
    | [] => none
    | c :: rest =>
      if c = '"' then
        match parseStr rest with
        | none => none
        | some (k, r1) =>
          match r1 with
          | c1 :: c2 :: r2 =>
            if c1 = ':' ∧ c2 = '"' then
              match parseStr r2 with
              | none => none
              | some (v, r3) =>
                match r3 with
                | [] => none
                | c3 :: r4 =>
                  if c3 = ',' then
                    match parseEntriesF fuel r4 with
                    | some es => some ((k, v) :: es)
                    | none => none
                  else if c3 = '}' ∧ r4 = [] then some [(k, v)]
                  else none
            else none
          | _ => none
      else none

/-- Modelled from the spec: JSON.parse of a flat string-to-string object. -/
def parseFlat (s : List Char) : Option (List (List Char × List Char)) :=
  match s with
  | [] => none
  | c :: rest =>
    if c = '{' then
      if rest = ['}'] then some []
      else parseEntriesF rest.length rest
    else none

theorem parseStr_lit (k : List Char) (rest : List Char) (h : plainStr k = true) :
    parseStr (k ++ '"' :: rest) = some (k, rest) := by
  induction k with
  | nil =>
    rw [List.nil_append, parseStr.eq_def]
    simp
  | cons c ks ih =>
    simp only [plainStr, List.all_cons, Bool.and_eq_true] at h
    obtain ⟨hc, hks⟩ := h
    simp only [plainChar, Bool.and_eq_true, Bool.not_eq_true', beq_eq_false_iff_ne,
      decide_eq_true_eq] at hc
    obtain ⟨⟨hc1, hc2⟩, h32⟩ := hc
    have hc3 : ¬(c.toNat < 32) := by omega
    have hks2 : plainStr ks = true := hks
    rw [show (c :: ks) ++ '"' :: rest = c :: (ks ++ '"' :: rest) from rfl]
    rw [parseStr.eq_def]
    simp [hc1, hc2, hc3, ih hks2]

theorem parseEntriesF_rt (entries : List (List Char × List Char)) :
    ∀ fuel : Nat, entries ≠ [] →
      (∀ kv ∈ entries, plainStr kv.1 = true ∧ plainStr kv.2 = true) →
      entries.length ≤ fuel →
      parseEntriesF fuel (joinComma (entries.map entryRaw) ++ ['}']) = some entries := by
  induction entries with
  | nil =>
    intro fuel hne _ _
    exact absurd rfl hne
  | cons e rest ih =>
    intro fuel _ hnq hfuel
    obtain ⟨k, v⟩ := e
    cases fuel with
    | zero =>
      simp only [List.length_cons] at hfuel
      omega
    | succ f =>
      have hk := (hnq (k, v) (List.mem_cons_self _ _)).1
      have hv := (hnq (k, v) (List.mem_cons_self _ _)).2
      cases rest with
      | nil =>
        have hshape : joinComma ([((k : List Char), (v : List Char))].map entryRaw) ++ ['}']
            = '"' :: (k ++ '"' :: ':' :: '"' :: (v ++ '"' :: '}' :: [])) := by
          simp [joinComma, entryRaw, List.append_assoc]
        rw [hshape]
        simp only [parseEntriesF]
        simp [parseStr_lit, hk, hv]
      | cons e2 rest2 =>
        have hshape : joinComma (((k, v) :: e2 :: rest2).map entryRaw) ++ ['}']
            = '"' :: (k ++ '"' :: ':' :: '"' :: (v ++ '"' :: ',' ::
                (joinComma ((e2 :: rest2).map entryRaw) ++ ['}']))) := by
          simp [joinComma, entryRaw, List.append_assoc]
        rw [hshape]
        have hrest : parseEntriesF f (joinComma ((e2 :: rest2).map entryRaw) ++ ['}'])
            = some (e2 :: rest2) := by
          apply ih f (by simp) (fun kv hm => hnq kv (List.mem_cons_of_mem _ hm))
          simp only [List.length_cons] at hfuel ⊢
          omega
        simp only [List.map_cons] at hrest
        simp only [parseEntriesF]
        simp [parseStr_lit, hk, hv, hrest]

theorem entryRaw_length (kv : List Char × List Char) :
    (entryRaw kv).length = kv.1.length + kv.2.length + 5 := by
  simp [entryRaw]
  omega

theorem joinComma_length_ge (l : List (List Char × List Char)) (hl : l ≠ []) :
    l.length + 4 ≤ (joinComma (l.map entryRaw)).length := by
  induction l with
  | nil => exact absurd rfl hl
  | cons e rest ih =>
    cases rest with
    | nil =>
      simp [joinComma, entryRaw_length]
    | cons e2 rest2 =>
      have hih := ih (by simp)
      simp only [List.map_cons, joinComma, List.length_append, List.length_cons] at *
      rw [entryRaw_length] at *
      omega

theorem parseFlat_rt (entries : List (List Char × List Char))
    (hnq : ∀ kv ∈ entries, plainStr kv.1 = true ∧ plainStr kv.2 = true) :
    parseFlat ('{' :: (joinComma (entries.map entryRaw) ++ ['}'])) = some entries := by
  cases entries with
  | nil => simp [parseFlat, joinComma]
  | cons e rest =>
    have hjc := joinComma_length_ge (e :: rest) (by simp)
    have hne : joinComma ((e :: rest).map entryRaw) ++ ['}'] ≠ ['}'] := by
      intro he
      have := congrArg List.length he
      simp only [List.length_append, List.length_cons, List.length_nil] at this
      omega
    simp only [parseFlat, if_true]
    rw [if_neg hne]
    apply parseEntriesF_rt (e :: rest) _ (by simp) hnq
    simp only [List.length_cons] at hjc
    simp only [List.length_append, List.length_cons, List.length_nil]
    omega

/-- The whole textual pipeline on the serialization: stringify then the
regex rewrite equals the brace-wrapped join of the entries with each key
and value rewritten independently. -/
theorem rewriteOps_stringify (entries : List (List Char × List Char))
    (hplain : ∀ kv ∈ entries, plainStr kv.1 = true ∧ plainStr kv.2 = true) :
    rewriteOps (stringifyFlat entries)
      = '{' :: (joinComma ((entries.map
          (fun kv => (rewriteOps kv.1, rewriteOps kv.2))).map entryRaw) ++ ['}']) := by
  have hser : entries.map entrySer = entries.map entryRaw := by
    apply List.map_congr_left
    intro kv hkv
    obtain ⟨hk, hv⟩ := hplain kv hkv
    simp [entrySer, entryRaw, escStr_plain _ hk, escStr_plain _ hv]
  rw [show rewriteOps (stringifyFlat entries)
      = rwAux false ('{' :: (joinComma (entries.map entrySer) ++ ['}'])) from rfl]
  rw [hser]
  rw [rwAux_cons_nonword false '{' _ (by decide)]
  rw [rwAux_joinComma]

/-- The reserved keys of the query feature builder. -/
def excludedKeysL : List (List Char) :=
  ["page".toList, "sort".toList, "limit".toList, "fields".toList]

/-- `excludedFields.forEach((el) => delete queryObj[el])`. -/
def dropExcluded (q : List (List Char × List Char)) : List (List Char × List Char) :=
  q.filter (fun kv => !(excludedKeysL.contains kv.1))

/-- APIFeatures.filter's constructed filter object:
`JSON.parse(JSON.stringify(queryObj).replace(...))`.  `none` models a
JSON.parse throw. -/
def filterApplied (q : List (List Char × List Char)) :
    Option (List (List Char × List Char)) :=
  parseFlat (rewriteOps (stringifyFlat (dropExcluded q)))

/-- The query feature builder: the accumulated `.find(...)` filters and the
request's flat query-string map (src/src/utils/apiFeatures.ts). -/
structure APIFeatures where
  query : List (List (List Char × List Char))
  queryString : List (List Char × List Char)
deriving DecidableEq

/-- The filter step: build the rewritten filter object, apply it to the
query with `.find`, and return the builder (same queryString, query
extended in place). -/
def APIFeatures.filter (af : APIFeatures) : Option APIFeatures :=
  match filterApplied af.queryString with
  | some f => some { query := af.query ++ [f], queryString := af.queryString }
  | none => none

/-- C7 as amended: for every flat query-parameter map whose keys and
values are JSON-plain (no quote, backslash or control character — text the
serialization reproduces verbatim), the filter step removes exactly the
reserved keys page, sort, limit and fields, rewrites every bare-word
occurrence of gt, gte, lt, lte, eq, ne in the JSON serialization of what
remains — keys and values alike, including occurrences inside unrelated
string values — to its dollar-prefixed form, applies the re-parsed object
as the query filter, and returns the same builder (queryString untouched,
query extended).  The restriction is necessary: see the counterexample
below, where the rewrite corrupts an escape sequence and the parse
throws. -/
theorem c7_filter_rewrites_and_applies (af : APIFeatures)
    (h : ∀ kv ∈ af.queryString, plainStr kv.1 = true ∧ plainStr kv.2 = true) :
    APIFeatures.filter af = some
      { query := af.query ++
          [(af.queryString.filter (fun kv => !(excludedKeysL.contains kv.1))).map
              (fun kv => (rewriteOps kv.1, rewriteOps kv.2))],
        queryString := af.queryString } := by
  have hd : ∀ kv ∈ dropExcluded af.queryString,
      plainStr kv.1 = true ∧ plainStr kv.2 = true := by
    intro kv hm
    exact h kv (List.mem_filter.mp hm).1
  have hrw := rewriteOps_stringify (dropExcluded af.queryString) hd
  have hplainrw : ∀ kv ∈ (dropExcluded af.queryString).map
      (fun kv => (rewriteOps kv.1, rewriteOps kv.2)),
      plainStr kv.1 = true ∧ plainStr kv.2 = true := by
    intro kv hm
    rw [List.mem_map] at hm
    obtain ⟨kv0, hm0, heq⟩ := hm
    obtain ⟨h1, h2⟩ := hd kv0 hm0
    subst heq
    constructor
    · exact rwAux_plain kv0.1.length kv0.1 le_rfl h1 false
    · exact rwAux_plain kv0.2.length kv0.2 le_rfl h2 false
  have hparse := parseFlat_rt ((dropExcluded af.queryString).map
      (fun kv => (rewriteOps kv.1, rewriteOps kv.2))) hplainrw
  unfold APIFeatures.filter filterApplied
  rw [hrw, hparse]
  simp [dropExcluded]

def afW : APIFeatures :=
  { query := [],
    queryString := [("duration".toList, "gte 5".toList),
                    ("sort".toList, "name".toList),
                    ("note".toList, "the gt word".toList)] }

theorem c7_witness :
    (∀ kv ∈ afW.queryString, plainStr kv.1 = true ∧ plainStr kv.2 = true) ∧
      APIFeatures.filter afW = some
        { query := afW.query ++
            [(afW.queryString.filter (fun kv => !(excludedKeysL.contains kv.1))).map
                (fun kv => (rewriteOps kv.1, rewriteOps kv.2))],
          queryString := afW.queryString } :=
  ⟨by decide, c7_filter_rewrites_and_applies afW (by decide)⟩

def afCex : APIFeatures :=
  { query := [], queryString := [(['a'], ['\n', 'e'])] }

/-- C7 counterexample to the original claim: the flat map a ↦ "\ne" (the
URL query ?a=%0Ae).  JSON.stringify serializes the newline as the escape
sequence \n, so the serialization reads \x7b"a":"\ne"\x7d; the backslash
is a non-word character, so the regex finds a word boundary before that n,
matches the word ne, and rewrites the text to \x7b"a":"\$ne"\x7d — but \$
is an invalid escape, so JSON.parse throws: the filter step returns no
builder and applies no filter at all, instead of removing reserved keys,
rewriting and applying the re-parsed object as the claim states. -/
theorem c7_counterexample : APIFeatures.filter afCex = none := by
  have hstr : stringifyFlat (dropExcluded afCex.queryString)
      = ['{', '"', 'a', '"', ':', '"', '\\', 'n', 'e', '"', '}'] := by decide
  have hrw : rewriteOps ['{', '"', 'a', '"', ':', '"', '\\', 'n', 'e', '"', '}']
      = ['{', '"', 'a', '"', ':', '"', '\\', '$', 'n', 'e', '"', '}'] := by
    unfold rewriteOps
    rw [rwAux_cons_nonword false '{' _ (by decide)]
    rw [rwAux_cons_nonword false '"' _ (by decide)]
    rw [rwAux_false_cons_none 'a' _ (by decide)]
    rw [show isWordChar 'a' = true from by decide]
    rw [rwAux_cons_word_of_prev '"' _]
    rw [show isWordChar '"' = false from by decide]
    rw [rwAux_cons_nonword false ':' _ (by decide)]
    rw [rwAux_cons_nonword false '"' _ (by decide)]
    rw [rwAux_cons_nonword false '\\' _ (by decide)]
    rw [rwAux_false_cons_some 'n' _ neL (by decide)]
    rw [show List.drop neL.length ['n', 'e', '"', '}'] = ['"', '}'] from by decide]
    rw [rwAux_cons_nonword true '"' _ (by decide)]
    rw [rwAux_cons_nonword false '}' _ (by decide)]
    rw [rwAux_nil]
    decide
  unfold APIFeatures.filter filterApplied
  rw [hstr, hrw]
  decide
